import Mathlib

/-!
Shallow embedding of the usage-accounting core of cc-status.

Sources embedded here:
- `src/src/segments/subscription.ts` (SubscriptionService): entry filtering and
  deduplication, `identifySessionBlocks`, `findActiveBlock`, `createBlockInfo`,
  `floorToHour`, `createEntryHash`, `getSubscriptionInfo`, `getFallbackData`.
- `src/src/services/transcript-parser.ts` (TranscriptParser, first revision):
  `identifySessionBlocks` (lines 455-513, the variant returning blocks with
  `startTime`/`endTime`), `calculateTokenBreakdown`, `getAllSessionsForToday`.
- `src/unnamed/part_001` (LimitDetectionService): `detectFromHistoricalUsage`,
  `findLimitClusters`, `groupInto5HourBlocks`, `getConservativeFallback`.
- `src/unnamed/part_008` (BurnRateService): `parseTranscriptEntries`,
  `calculateBurnRate`, `projectUsage`, `getBurnRateInfo`.

Modelling conventions:
- JS epoch-millisecond timestamps are `Int`.  The source parses ISO timestamp
  strings into `Date` objects and compares `getTime()` values; byte-identical
  timestamp strings map to equal millisecond values, and all ordering and
  arithmetic in the source is on the millisecond values.
- JS numbers are modelled as `ℚ` (token counts that are always integral as
  `Nat`).  All concrete inputs used in theorems keep every JS float computation
  exact (integers far below 2^53), so the rational model agrees with the
  source's float arithmetic on them.
- `Date.now()` / `new Date()` (the ambient clock) is threaded through as an
  explicit `now : Int` parameter.
- The transcript parser (`parseTranscriptFile`) only yields lines that carry a
  `message.usage` substructure and always supplies a non-empty timestamp string
  (line 79 falls back to the current time), so a parsed entry's timestamp is
  always present; optional usage token fields default to 0 at every use site
  (`|| 0`), which is baked into `usageOf`.
- A `RawEntry` is the raw log-line shape, as the burn-rate service's own line
  parser sees it (part_008 lines 63-88).  `parseTranscriptFile`
  (transcript-parser.ts lines 78-104) copies only the timestamp, the
  usage/model substructure and the cost onto its output — not `isSidechain`,
  `message.id` or `requestId` — which `parsedEntry` models; the subscription
  pipeline consumes such parsed entries, on which the sidechain skip and the
  id-based hash branch therefore never fire.
-/

namespace CcStatus

/-- One parsed transcript-line usage structure (`message.usage`); the four
optional token counts with their `|| 0` defaults applied. -/
structure Usage where
  input_tokens : Nat
  output_tokens : Nat
  cache_creation_input_tokens : Nat
  cache_read_input_tokens : Nat
deriving DecidableEq

/-- One parsed transcript entry, as consumed by the accounting pipeline.
`usage = none` models a line whose `message.usage` is absent; `costUSD`
carries the `entry.costUSD || 0` default. -/
structure RawEntry where
  timestamp : Int
  usage : Option Usage
  costUSD : ℚ
  isSidechain : Bool
  messageId : Option String
  requestId : Option String
deriving DecidableEq

/-- The `message.usage` object with `|| 0` defaults (absent object gives all
zeros, matching the defaulted reads at every use site). -/
def usageOf (e : RawEntry) : Usage :=
  e.usage.getD ⟨0, 0, 0, 0⟩

/-- Sum of all four token fields of one entry. -/
def tokensAll (e : RawEntry) : Nat :=
  (usageOf e).input_tokens + (usageOf e).output_tokens +
    (usageOf e).cache_creation_input_tokens + (usageOf e).cache_read_input_tokens

/-- Sum of the token fields excluding `cache_read_input_tokens`
(subscription.ts lines 131-137). -/
def tokensNoCacheRead (e : RawEntry) : Nat :=
  (usageOf e).input_tokens + (usageOf e).output_tokens +
    (usageOf e).cache_creation_input_tokens

/-- The 5-hour session window in milliseconds (`5 * 60 * 60 * 1000`). -/
def sessionDurationMs : Int := 5 * 60 * 60 * 1000

/-- One hour in milliseconds. -/
def hourMs : Int := 60 * 60 * 1000

/-- Model of `floorToHour` (subscription.ts lines 321-325): zeroing the UTC minutes,
seconds and milliseconds of an epoch instant floors it to its hour, i.e.
subtracts the nonnegative remainder modulo one hour. -/
def floorToHour (t : Int) : Int := t - t % hourMs

/-- Timestamp order on entries. -/
def tsLE (a b : RawEntry) : Prop :=
  a.timestamp ≤ b.timestamp

instance : DecidableRel tsLE := fun a b => Int.decLe a.timestamp b.timestamp

instance : IsTotal RawEntry tsLE := ⟨fun a b => le_total a.timestamp b.timestamp⟩

instance : IsTrans RawEntry tsLE := ⟨fun _ _ _ => le_trans⟩

/-- The `[...entries].sort((a, b) => a.timestamp - b.timestamp)` step.  The JS
sort is a stable ascending sort by timestamp; it is modelled by the canonical
stable sort (insertion sort), which produces the same list. -/
def sortEntriesByTimestamp (l : List RawEntry) : List RawEntry :=
  l.insertionSort tsLE

/-- Loop body of `identifySessionBlocks` (subscription.ts lines 247-270 and
transcript-parser.ts lines 467-500): `start` is the open block's floored
start, `cur` its entries so far.  A record breaks the block when its distance
from the block start, or from the previous record, exceeds the window; the
closed block is emitted and a new one opens floored to the record's hour.
The unreachable `lastEntry == null → continue` guard of the source is kept as
the `none` branch. -/
def identifyGo (start : Int) (cur : List RawEntry) :
    List RawEntry → List (Int × List RawEntry)
  | [] => if cur.isEmpty then [] else [(start, cur)]
  | e :: rest =>
    match cur.getLast? with
    | none => identifyGo start cur rest
    | some lastEntry =>
      if e.timestamp - start > sessionDurationMs ∨
          e.timestamp - lastEntry.timestamp > sessionDurationMs then
        (start, cur) :: identifyGo (floorToHour e.timestamp) [e] rest
      else
        identifyGo start (cur ++ [e]) rest

/-- A session block as produced by transcript-parser.ts `identifySessionBlocks`
(lines 455-513): hour-floored `startTime`, fixed `endTime = startTime +
sessionDurationMs`, and the block's records. -/
structure Block where
  startTime : Int
  endTime : Int
  entries : List RawEntry
deriving DecidableEq

/-- Model of `identifySessionBlocks` (transcript-parser.ts lines 455-513): sort the
entries by timestamp, then fold them into blocks with the dual break
condition; every block is emitted with `endTime = startTime +
sessionDurationMs`. -/
def identifySessionBlocks (entries : List RawEntry) : List Block :=
  match sortEntriesByTimestamp entries with
  | [] => []
  | e :: rest =>
    (identifyGo (floorToHour e.timestamp) [e] rest).map
      (fun p => ⟨p.1, p.1 + sessionDurationMs, p.2⟩)

/-- The subscription.ts variant of `identifySessionBlocks` (lines 237-277)
returns only the per-block entry lists; the algorithm is identical. -/
def identifySessionBlockLists (entries : List RawEntry) : List (List RawEntry) :=
  (identifySessionBlocks entries).map Block.entries

/-- Total tokens of a block: the sum over all four token fields of its
records. -/
def blockTotalTokens (b : Block) : Nat :=
  (b.entries.map tokensAll).sum

/-- Model of `createBlockInfo` (subscription.ts lines 304-316), with the ambient clock
passed explicitly: the block is active iff the time since its last record is
below the window and `now` is before the fixed `endTime`. -/
def createBlockInfo (now startTime : Int) (entries : List RawEntry) : Bool :=
  let endTime := startTime + sessionDurationMs
  let actualEndTime :=
    match entries.getLast? with
    | some lastEntry => lastEntry.timestamp
    | none => startTime
  decide (now - actualEndTime < sessionDurationMs) && decide (now < endTime)

/-- Activity test of one block entry-list as `findActiveBlock` performs it:
recover the block start by flooring its first record's hour, then apply
`createBlockInfo`; an empty block is never active (it is skipped by the
loop's `continue`). -/
def blockActive (now : Int) (b : List RawEntry) : Bool :=
  match b.head? with
  | none => false
  | some firstEntry => createBlockInfo now (floorToHour firstEntry.timestamp) b

/-- Loop of `findActiveBlock` (subscription.ts lines 283-298) after reversal:
the source iterates `i` from the last block down to the first, skipping empty
blocks, and returns the first block reported active. -/
def findActiveBlockGo (now : Int) : List (List RawEntry) → Option (List RawEntry)
  | [] => none
  | b :: rest =>
    if b.isEmpty then findActiveBlockGo now rest
    else
      match b.head? with
      | none => findActiveBlockGo now rest
      | some firstEntry =>
        if createBlockInfo now (floorToHour firstEntry.timestamp) b then some b
        else findActiveBlockGo now rest

/-- Model of `findActiveBlock` (subscription.ts lines 282-299): scan the partitioned
blocks from most recent to least recent and return the first active one. -/
def findActiveBlock (now : Int) (blocks : List (List RawEntry)) :
    Option (List RawEntry) :=
  findActiveBlockGo now blocks.reverse

/-- A deduplication key as built by `createEntryHash` (subscription.ts lines
338-364): either the composite of message id and request id, or the fallback
signature of timestamp plus input/output token counts. -/
inductive EntryHash where
  | ids : String → String → EntryHash
  | sig : Int → Nat → Nat → EntryHash
deriving DecidableEq

/-- Model of `createEntryHash` (subscription.ts lines 338-364).  When both identifiers
are present the composite id key is used, otherwise the timestamp and the
defaulted input/output counts form the signature.  A parsed entry always has
a non-empty timestamp string (transcript-parser.ts line 79), so the
`entry.timestamp &&` truthiness guard of the fallback branch always passes
and `none` arises exactly when the entry has no usage substructure.  On the
subscription path's parsed entries both identifiers are absent (the parser
copies neither `message.id` nor `requestId`), so the signature branch is the
one that fires there. -/
def createEntryHash (e : RawEntry) : Option EntryHash :=
  match e.messageId, e.requestId with
  | some m, some r => some (.ids m r)
  | _, _ =>
    match e.usage with
    | some u => some (.sig e.timestamp u.input_tokens u.output_tokens)
    | none => none

/-- The per-entry filter-and-deduplicate loop of `getActiveBlockUsage`
(subscription.ts lines 74-113): skip sidechain entries, skip entries without
usage data, then skip entries whose hash was already seen, recording each new
hash.  An entry with a `null` hash is always kept.  The sidechain skip
mirrors lines 79-83 of the source but is dead in the composed program: its
input comes from `parseTranscriptFile`, which never copies `isSidechain`
onto parsed entries (see `parsedEntry`), so `entry.isSidechain === true` is
always false there. -/
def dedupGo (seen : List EntryHash) : List RawEntry → List RawEntry
  | [] => []
  | e :: rest =>
    if e.isSidechain then dedupGo seen rest
    else
      match e.usage with
      | none => dedupGo seen rest
      | some _ =>
        match createEntryHash e with
        | some h =>
          if h ∈ seen then dedupGo seen rest
          else e :: dedupGo (h :: seen) rest
        | none => e :: dedupGo seen rest

/-- The deduplicated entry stream of one invocation: the filter loop started
with an empty `seenHashes` set. -/
def filterAndDedup (entries : List RawEntry) : List RawEntry :=
  dedupGo [] entries

/-- Result record of `getActiveBlockUsage` (subscription.ts line 62).  The two
early returns of the source omit the last two fields (leaving them
`undefined`); they are modelled as 0. -/
structure UsageData where
  totalTokens : Nat
  totalCost : ℚ
  dailyUsageWithCacheRead : Nat
  activeBlockWithCache : Nat
deriving DecidableEq

/-- Model of `getActiveBlockUsage` (subscription.ts lines 62-232) on the parsed entry
stream: filter and deduplicate, partition into session blocks, resolve the
active block, and total the active block without cache-read tokens
(`totalTokens`), its cost, the whole day's tokens with cache reads
(`dailyUsageWithCacheRead`) and the active block with cache reads
(`activeBlockWithCache`).  In the program the argument is the output of
`parseTranscriptFile` (subscription.ts line 75), i.e. a list of images of
`parsedEntry`. -/
def getActiveBlockUsage (now : Int) (parsed : List RawEntry) : UsageData :=
  let allEntries := filterAndDedup parsed
  if allEntries.isEmpty then ⟨0, 0, 0, 0⟩
  else
    let sessionBlocks := identifySessionBlockLists allEntries
    match findActiveBlock now sessionBlocks with
    | none => ⟨0, 0, 0, 0⟩
    | some activeBlock =>
      if activeBlock.isEmpty then ⟨0, 0, 0, 0⟩
      else
        { totalTokens := (activeBlock.map tokensNoCacheRead).sum
          totalCost := (activeBlock.map RawEntry.costUSD).sum
          dailyUsageWithCacheRead := (allEntries.map tokensAll).sum
          activeBlockWithCache := (activeBlock.map tokensAll).sum }

/-- Token breakdown record (transcript-parser.ts lines 23-29). -/
structure TokenBreakdown where
  input : Nat
  output : Nat
  cacheCreation : Nat
  cacheRead : Nat
  total : Nat
deriving DecidableEq

/-- Model of `calculateTokenBreakdown` (transcript-parser.ts lines 122-137): fold the
defaulted token fields of every entry and total the four sums. -/
def calculateTokenBreakdown (entries : List RawEntry) : TokenBreakdown :=
  let b := entries.foldl
    (fun acc e =>
      TokenBreakdown.mk
        (acc.input + (usageOf e).input_tokens)
        (acc.output + (usageOf e).output_tokens)
        (acc.cacheCreation + (usageOf e).cache_creation_input_tokens)
        (acc.cacheRead + (usageOf e).cache_read_input_tokens)
        acc.total)
    ⟨0, 0, 0, 0, 0⟩
  { b with total := b.input + b.output + b.cacheCreation + b.cacheRead }

/-- Totals of `getAllSessionsForToday` (transcript-parser.ts lines 357-384):
the daily cost aggregate sums ALL parsed entries of the day's transcripts —
there is no sidechain filter and no deduplication on this path. -/
structure DailyTotals where
  totalTokens : Nat
  totalCost : ℚ
deriving DecidableEq

/-- Model of `getAllSessionsForToday` (transcript-parser.ts lines 357-384) restricted to
its totals, taking the concatenated parsed entries of today's transcript
files. -/
def getAllSessionsForToday (allEntries : List RawEntry) : DailyTotals :=
  { totalTokens := (calculateTokenBreakdown allEntries).total
    totalCost := (allEntries.map RawEntry.costUSD).sum }

/-- The entry constructed by `parseTranscriptFile` (transcript-parser.ts lines
78-104) from a raw log line: only the timestamp, the usage substructure and
the cost are copied.  `isSidechain` is not copied (the parsed `TranscriptEntry`
does not even declare the field), so on the parsed entry the subscription
filter's `entry.isSidechain === true` test is false; `message.id` and
`requestId` are not copied either. -/
def parsedEntry (e : RawEntry) : RawEntry :=
  { timestamp := e.timestamp
    usage := e.usage
    costUSD := e.costUSD
    isSidechain := false
    messageId := none
    requestId := none }

/-- The same raw log line with its sidechain flag cleared. -/
def clearSidechain (e : RawEntry) : RawEntry :=
  { e with isSidechain := false }

/-- JS `Math.round`: round half toward positive infinity. -/
def jsRound (q : ℚ) : ℤ := ⌊q + 1 / 2⌋

/-- JS `Math.max(...l)` over a list that is non-empty at every use site. -/
def jsMax (l : List ℚ) : ℚ := l.foldl max (l.headD 0)

/-- Confidence levels of a `UsageLimit` (part_001 lines 3-8). -/
inductive Confidence where
  | high
  | medium
  | low
  | fallback
deriving DecidableEq

/-- Source tag of a `UsageLimit` (part_001 lines 3-8). -/
inductive LimitSource where
  | historical_analysis
  | configuration
  | conservative_estimate
  | fallback
deriving DecidableEq

/-- Model of `UsageLimit` (part_001 lines 3-8) without the `lastUpdated` wall-clock
stamp. -/
structure UsageLimit where
  dailyTokenLimit : ℤ
  confidence : Confidence
  source : LimitSource
deriving DecidableEq

/-- Model of `getConservativeFallback` (part_001 lines 366-373). -/
def getConservativeFallback : UsageLimit :=
  { dailyTokenLimit := 45600000
    confidence := .fallback
    source := .fallback }

/-- Descending numeric order, as compared by JS `sort((a, b) => b - a)`. -/
def qGE (a b : ℚ) : Prop := b ≤ a

instance : DecidableRel qGE := fun a b => (inferInstance : Decidable (b ≤ a))

instance : IsTotal ℚ qGE := ⟨fun a b => le_total b a⟩

instance : IsTrans ℚ qGE := ⟨fun _ _ _ h1 h2 => le_trans h2 h1⟩

/-- Descending sort of JS `sort((a, b) => b - a)`, modelled by the canonical
stable sort. -/
def sortDesc (l : List ℚ) : List ℚ :=
  l.insertionSort qGE

/-- Group-assignment step of `findLimitClusters` (part_001 lines 225-242): a
count joins the first existing group whose running mean it is within 2% of,
otherwise it opens a new group at the end of the group list.  Historical
block totals are strictly positive (part_001 line 135), so every group mean
divided by is positive. -/
def addToGroups : List (List ℚ) → ℚ → List (List ℚ)
  | [], c => [[c]]
  | g :: gs, c =>
    let groupAvg := g.sum / (g.length : ℚ)
    if |c - groupAvg| / groupAvg ≤ 2 / 100 then (g ++ [c]) :: gs
    else g :: addToGroups gs c

/-- Model of `findLimitClusters` (part_001 lines 216-255): with fewer than 5 totals no
clusters are reported; otherwise totals are grouped by the 2% running-mean
rule, and every group of at least 3 members whose mean exceeds the 30M
high-usage floor contributes its rounded mean, sorted descending. -/
def findLimitClusters (tokenCounts : List ℚ) : List ℚ :=
  if tokenCounts.length < 5 then []
  else
    let groups := tokenCounts.foldl addToGroups []
    let clusters := groups.filterMap
      (fun g =>
        if 3 ≤ g.length then
          let avgValue := g.sum / (g.length : ℚ)
          if avgValue > 30000000 then some ((jsRound avgValue : ℤ) : ℚ)
          else none
        else none)
    sortDesc clusters

/-- The 95th-percentile value of `detectFromHistoricalUsage` (part_001 lines
61-63): the `floor(n * 0.05)`-th element of the descending-sorted totals,
defaulting to 0 (`|| 0`). -/
def percentile95 (blockTotals : List ℚ) : ℚ :=
  let tokenCounts := sortDesc blockTotals
  tokenCounts.getD (tokenCounts.length * 5 / 100) 0

/-- The 99th-percentile value of `detectFromHistoricalUsage` (part_001 lines
65-67): the `floor(n * 0.01)`-th element of the descending-sorted totals,
defaulting to 0 (`|| 0`). -/
def percentile99 (blockTotals : List ℚ) : ℚ :=
  let tokenCounts := sortDesc blockTotals
  tokenCounts.getD (tokenCounts.length / 100) 0

/-- Model of `detectFromHistoricalUsage` (part_001 lines 49-103) on the historical
per-block token totals: empty history falls back; otherwise the decision
table is evaluated in order on the percentiles and limit clusters of the
descending-sorted totals, and the chosen limit is rounded.  The `medium`
branch tests the 95th percentile against 40,000,000 (line 79), not against
the 30M high-usage floor. -/
def detectFromHistoricalUsage (blockTotals : List ℚ) : UsageLimit :=
  if blockTotals.length = 0 then getConservativeFallback
  else
    let tokenCounts := sortDesc blockTotals
    let p95 := tokenCounts.getD (tokenCounts.length * 5 / 100) 0
    let p99 := tokenCounts.getD (tokenCounts.length / 100) 0
    let potentialLimits := findLimitClusters tokenCounts
    let est : ℚ × Confidence :=
      if 0 < potentialLimits.length ∧ p99 > 30000000 then
        (jsMax potentialLimits, .high)
      else if p95 > 40000000 then (p99, .medium)
      else if p95 > 20000000 then (max p99 45600000, .low)
      else (45600000, .low)
    { dailyTokenLimit := jsRound est.1
      confidence := est.2
      source := .historical_analysis }

/-- Block-accumulation loop of `groupInto5HourBlocks` (part_001 lines 175-200):
`start` is the raw (unfloored) timestamp anchoring the current block and
`tokens` its running total.  A record more than 5 hours after `start` closes
the block (kept only when its total is positive) and anchors a new block at
the record's raw timestamp; every record's defaulted token sum is then added
to the open block.  There is no check against the previous record. -/
def groupGo (start : Int) (tokens : Nat) :
    List RawEntry → List (Nat × Int)
  | [] => if 0 < tokens then [(tokens, start)] else []
  | e :: rest =>
    if e.timestamp - start > sessionDurationMs then
      (if 0 < tokens then [(tokens, start)] else []) ++
        groupGo e.timestamp (tokensAll e) rest
    else
      groupGo start (tokens + tokensAll e) rest

/-- Model of `groupInto5HourBlocks` (part_001 lines 161-211): sort the entries, anchor
the first block at the first record's raw timestamp with a zero running
total, and run the accumulation loop; each kept block is the pair of its
positive token total and its raw start time. -/
def groupInto5HourBlocks (entries : List RawEntry) : List (Nat × Int) :=
  match sortEntriesByTimestamp entries with
  | [] => []
  | e :: rest => groupGo e.timestamp 0 (e :: rest)

/-- Projected end-of-block usage (part_008 lines 7-11 and 168-216). -/
structure UsageProjection where
  totalTokens : ℤ
  totalCost : ℚ
  remainingMinutes : ℤ
deriving DecidableEq

/-- Model of `BurnRateInfo` (part_008 lines 3-12). -/
structure BurnRateInfo where
  tokensPerMinute : ℚ
  tokensPerMinuteForIndicator : ℚ
  costPerHour : ℚ
  projection : Option UsageProjection
deriving DecidableEq

/-- Non-cache token sum of one entry (input + output), used for the indicator
burn rate (part_008 line 139). -/
def nonCacheTokens (e : RawEntry) : Nat :=
  (usageOf e).input_tokens + (usageOf e).output_tokens

/-- Model of `projectUsage` (part_008 lines 168-216), with the ambient clock explicit:
linear extrapolation from the hour-floored session start to its fixed end,
with the remaining minutes floored at zero. -/
def projectUsage (now : Int) (entries : List RawEntry)
    (tokensPerMinute costPerHour : ℚ) : Option UsageProjection :=
  match entries.head? with
  | none => none
  | some firstEntry =>
    let sessionStart := floorToHour firstEntry.timestamp
    let sessionEnd := sessionStart + sessionDurationMs
    let remainingMinutes : ℚ := max 0 (((sessionEnd - now : Int) : ℚ) / 60000)
    let currentTotalTokens : ℚ := ((entries.map tokensAll).sum : ℚ)
    let currentTotalCost : ℚ := (entries.map RawEntry.costUSD).sum
    some
      { totalTokens := jsRound (currentTotalTokens + tokensPerMinute * remainingMinutes)
        totalCost :=
          ((jsRound ((currentTotalCost + costPerHour / 60 * remainingMinutes) * 100) : ℤ) : ℚ) / 100
        remainingMinutes := jsRound remainingMinutes }

/-- Model of `calculateBurnRate` (part_008 lines 96-166), with the ambient clock
explicit: `null` with fewer than 2 entries or non-positive elapsed time;
otherwise the total tokens divided by the minutes between the first and last
entry, the non-cache variant for the indicator, the cost rate (estimated from
rough per-category prices when no recorded cost exists), and the
projection. -/
def calculateBurnRate (now : Int) (entries : List RawEntry) :
    Option BurnRateInfo :=
  if entries.length < 2 then none
  else
    match entries.head?, entries.getLast? with
    | some firstEntry, some lastEntry =>
      let durationMinutes : ℚ :=
        ((lastEntry.timestamp - firstEntry.timestamp : Int) : ℚ) / 60000
      if durationMinutes ≤ 0 then none
      else
        let totalInputTokens : ℚ :=
          ((entries.map (fun e => (usageOf e).input_tokens)).sum : ℚ)
        let totalOutputTokens : ℚ :=
          ((entries.map (fun e => (usageOf e).output_tokens)).sum : ℚ)
        let totalCacheCreationTokens : ℚ :=
          ((entries.map (fun e => (usageOf e).cache_creation_input_tokens)).sum : ℚ)
        let totalCacheReadTokens : ℚ :=
          ((entries.map (fun e => (usageOf e).cache_read_input_tokens)).sum : ℚ)
        let totalCost : ℚ := (entries.map RawEntry.costUSD).sum
        let totalTokens :=
          totalInputTokens + totalOutputTokens + totalCacheCreationTokens +
            totalCacheReadTokens
        let tokensPerMinute := totalTokens / durationMinutes
        let nonCache := totalInputTokens + totalOutputTokens
        let tokensPerMinuteForIndicator := nonCache / durationMinutes
        let costPerHour :=
          if totalCost = 0 ∧ 0 < totalTokens then
            (totalInputTokens * 3 / 1000000 + totalOutputTokens * 15 / 1000000 +
                totalCacheCreationTokens * (375 / 100) / 1000000 +
                totalCacheReadTokens * (30 / 100) / 1000000) /
              durationMinutes * 60
          else totalCost / durationMinutes * 60
        some
          { tokensPerMinute
            tokensPerMinuteForIndicator
            costPerHour
            projection := projectUsage now entries tokensPerMinute costPerHour }
    | _, _ => none

/-- Filter of `parseTranscriptEntries` (part_008 lines 54-94) on parsed lines:
drop sidechain entries, entries without usage and entries whose four token
counts are all zero, then sort by timestamp. -/
def parseTranscriptEntries (lines : List RawEntry) : List RawEntry :=
  sortEntriesByTimestamp
    (lines.filter
      (fun e => !e.isSidechain && e.usage.isSome && decide (0 < tokensAll e)))

/-- Model of `getBurnRateInfo` (part_008 lines 37-52): parse and filter the transcript,
return `null` with fewer than 2 entries, otherwise compute the burn rate. -/
def getBurnRateInfo (now : Int) (lines : List RawEntry) : Option BurnRateInfo :=
  let entries := parseTranscriptEntries lines
  if entries.length < 2 then none
  else calculateBurnRate now entries

/-- Model of `SubscriptionInfo` (subscription.ts lines 4-14) without the always-`null`
projection field. -/
structure SubscriptionInfo where
  percentage : ℚ
  tokensUsed : Nat
  tokensLimit : ℤ
  isOverLimit : Bool
deriving DecidableEq

/-- Model of `getFallbackData` (subscription.ts lines 368-377): the hardcoded
conservative payload returned whenever the accessor's body throws. -/
def getFallbackData : SubscriptionInfo :=
  { percentage := 486 / 10
    tokensUsed := 9404300
    tokensLimit := 19342800
    isOverLimit := false }

/-- Model of `getSubscriptionInfo` (subscription.ts lines 21-57).  The body — usage
gathering, limit detection and the percentage arithmetic — sits inside one
`try`; any exception it surfaces is caught at this boundary and replaced by
`getFallbackData`, so the accessor is total.  The body's outcome is passed as
an `Except`: `ok` carries the gathered usage data and detected limit. -/
def getSubscriptionInfo (body : Except String (UsageData × UsageLimit)) :
    SubscriptionInfo :=
  match body with
  | .error _ => getFallbackData
  | .ok (usageData, limitInfo) =>
    let tokensUsed := usageData.activeBlockWithCache
    let tokensLimit := limitInfo.dailyTokenLimit
    let percentage : ℚ :=
      if 0 < tokensLimit then (tokensUsed : ℚ) / (tokensLimit : ℚ) * 100 else 0
    { percentage := ((jsRound (percentage * 10) : ℤ) : ℚ) / 10
      tokensUsed
      tokensLimit
      isOverLimit := decide (percentage > 100) }

/-- The `seenHashes` set after the filter-and-deduplicate loop has processed a
list of entries (mirrors the state evolution of `dedupGo`). -/
def seenAfter (seen : List EntryHash) : List RawEntry → List EntryHash
  | [] => seen
  | e :: rest =>
    if e.isSidechain then seenAfter seen rest
    else
      match e.usage with
      | none => seenAfter seen rest
      | some _ =>
        match createEntryHash e with
        | some h =>
          if h ∈ seen then seenAfter seen rest
          else seenAfter (h :: seen) rest
        | none => seenAfter seen rest

/-- Index of the chunk containing position `i` of the concatenation of a chunk
list: used to state that two positions of the record stream fall in the same
or in different blocks. -/
def chunkIndex : List (List RawEntry) → ℕ → ℕ
  | [], _ => 0
  | c :: cs, i => if i < c.length then 0 else chunkIndex cs (i - c.length) + 1

/-- The millisecond gap between consecutive records is at most the session
window. -/
def gapWithinWindow (a b : RawEntry) : Prop :=
  b.timestamp - a.timestamp ≤ sessionDurationMs

section Lemmas

theorem hourMs_pos : (0 : Int) < hourMs := by decide

theorem sessionDurationMs_pos : (0 : Int) < sessionDurationMs := by decide

theorem floorToHour_le (t : Int) : floorToHour t ≤ t := by
  have h := Int.emod_nonneg t (by decide : (hourMs : Int) ≠ 0)
  unfold floorToHour
  omega

theorem floorToHour_mod (t : Int) : floorToHour t % hourMs = 0 := by
  unfold floorToHour hourMs
  omega

theorem floorToHour_eq_mul_ediv (t : Int) : floorToHour t = hourMs * (t / hourMs) := by
  have h := Int.ediv_add_emod t hourMs
  unfold floorToHour hourMs at h ⊢
  omega

theorem aligned_le_floorToHour {s t : Int} (hs : s % hourMs = 0) (h : s ≤ t) :
    s ≤ floorToHour t := by
  have hdiv : s / hourMs ≤ t / hourMs := Int.ediv_le_ediv hourMs_pos h
  have hs' : s = hourMs * (s / hourMs) := by
    have := Int.ediv_add_emod s hourMs
    omega
  rw [floorToHour_eq_mul_ediv, hs']
  exact mul_le_mul_of_nonneg_left hdiv (by decide)

theorem sessionDurationMs_mod : sessionDurationMs % hourMs = 0 := by decide

theorem sortEntriesByTimestamp_perm (l : List RawEntry) :
    (sortEntriesByTimestamp l).Perm l :=
  List.perm_insertionSort tsLE l

theorem sortEntriesByTimestamp_chain (l : List RawEntry) :
    (sortEntriesByTimestamp l).Chain' tsLE :=
  (List.sorted_insertionSort tsLE l).chain'

theorem sortDesc_perm (l : List ℚ) : (sortDesc l).Perm l :=
  List.perm_insertionSort qGE l

theorem sortDesc_length (l : List ℚ) : (sortDesc l).length = l.length :=
  (sortDesc_perm l).length_eq

theorem identifyGo_spec (rest : List RawEntry) :
    ∀ (start : Int) (cur : List RawEntry),
      cur ≠ [] →
      (cur ++ rest).Chain' tsLE →
      cur.Chain' gapWithinWindow →
      start % hourMs = 0 →
      (∀ x ∈ cur, start ≤ x.timestamp) →
      (∀ f, cur.head? = some f → start = floorToHour f.timestamp) →
      ((identifyGo start cur rest).map Prod.snd).flatten = cur ++ rest ∧
      (∀ p ∈ identifyGo start cur rest, p.2 ≠ []) ∧
      (∀ p ∈ identifyGo start cur rest, p.2.Chain' gapWithinWindow) ∧
      (∀ p ∈ identifyGo start cur rest, p.1 % hourMs = 0) ∧
      (∀ p ∈ identifyGo start cur rest, ∀ x ∈ p.2, p.1 ≤ x.timestamp) ∧
      (∀ p ∈ identifyGo start cur rest, ∀ f, p.2.head? = some f →
        p.1 = floorToHour f.timestamp) ∧
      ((identifyGo start cur rest).map Prod.fst).Chain' (· < ·) ∧
      (identifyGo start cur rest).head?.map Prod.fst = some start := by
  induction rest with
  | nil =>
    intro start cur hne hsort hgap halign hle hfh
    have h0 : ¬(cur.isEmpty = true) := by simpa [List.isEmpty_iff] using hne
    simp only [identifyGo, if_neg h0]
    refine ⟨by simp, ?_, ?_, ?_, ?_, ?_, by simp, by simp⟩ <;>
      simp_all [List.mem_singleton]
  | cons e rest ih =>
    intro start cur hne hsort hgap halign hle hfh
    have hL : cur.getLast? = some (cur.getLast hne) := List.getLast?_eq_getLast cur hne
    have hLmem : cur.getLast hne ∈ cur := List.getLast_mem hne
    obtain ⟨hc, htail, hbound⟩ := List.chain'_append.mp hsort
    have hLe : tsLE (cur.getLast hne) e := by
      refine hbound _ ?_ e ?_ <;> simp [hL]
    by_cases hcond : e.timestamp - start > sessionDurationMs ∨
        e.timestamp - (cur.getLast hne).timestamp > sessionDurationMs
    · have hstep : identifyGo start cur (e :: rest) =
          (start, cur) :: identifyGo (floorToHour e.timestamp) [e] rest := by
        simp only [identifyGo, hL]
        rw [if_pos hcond]
      have hstartL : start ≤ (cur.getLast hne).timestamp := hle _ hLmem
      have hlt : start + sessionDurationMs < e.timestamp := by
        rcases hcond with h | h
        · omega
        · have := hLe
          unfold tsLE at this
          omega
      have halignW : (start + sessionDurationMs) % hourMs = 0 := by
        rw [Int.add_emod, halign, sessionDurationMs_mod]
        simp
      have hfle : start + sessionDurationMs ≤ floorToHour e.timestamp :=
        aligned_le_floorToHour halignW (le_of_lt hlt)
      have hstartlt : start < floorToHour e.timestamp := by
        have := sessionDurationMs_pos
        omega
      obtain ⟨ihjoin, ihne, ihgap, ihalign, ihle, ihfh, ihchain, ihhead⟩ :=
        ih (floorToHour e.timestamp) [e] (by simp)
          (by simpa using htail)
          (List.chain'_singleton e)
          (floorToHour_mod e.timestamp)
          (by intro x hx; rw [List.mem_singleton] at hx; rw [hx]
              exact floorToHour_le e.timestamp)
          (by intro f hf; simp only [List.head?_cons, Option.some.injEq] at hf
              rw [hf])
      rw [hstep]
      refine ⟨?_, ?_, ?_, ?_, ?_, ?_, ?_, by simp⟩
      · simp [ihjoin]
      · intro p hp
        rcases List.mem_cons.mp hp with h | h
        · rw [h]; exact hne
        · exact ihne p h
      · intro p hp
        rcases List.mem_cons.mp hp with h | h
        · rw [h]; exact hgap
        · exact ihgap p h
      · intro p hp
        rcases List.mem_cons.mp hp with h | h
        · rw [h]; exact halign
        · exact ihalign p h
      · intro p hp
        rcases List.mem_cons.mp hp with h | h
        · rw [h]; exact hle
        · exact ihle p h
      · intro p hp
        rcases List.mem_cons.mp hp with h | h
        · rw [h]; exact hfh
        · exact ihfh p h
      · rw [List.map_cons]
        refine List.chain'_cons'.mpr ⟨?_, ihchain⟩
        intro y hy
        rw [List.head?_map] at hy
        cases hmem : (identifyGo (floorToHour e.timestamp) [e] rest).head? with
        | none => rw [hmem] at hy; simp at hy
        | some q =>
          rw [hmem] at hy
          rw [hmem] at ihhead
          have hy' : q.1 = y := by simpa using hy
          have hq : q.1 = floorToHour e.timestamp := by simpa using ihhead
          rw [← hy', hq]
          exact hstartlt
    · have hstep : identifyGo start cur (e :: rest) =
          identifyGo start (cur ++ [e]) rest := by
        simp only [identifyGo, hL]
        rw [if_neg hcond]
      push_neg at hcond
      obtain ⟨h1, h2⟩ := hcond
      have hstartE : start ≤ e.timestamp := by
        have := hLe
        unfold tsLE at this
        have := hle _ hLmem
        omega
      obtain ⟨ihjoin, ihne, ihgap, ihalign, ihle, ihfh, ihchain, ihhead⟩ :=
        ih start (cur ++ [e]) (by simp)
          (by rw [List.append_assoc]; simpa using hsort)
          (by refine List.chain'_append.mpr ⟨hgap, List.chain'_singleton e, ?_⟩
              intro x hx y hy
              rw [hL] at hx
              have hx' : cur.getLast hne = x := by simpa using hx
              have hy' : e = y := by simpa using hy
              rw [← hx', ← hy']
              unfold gapWithinWindow
              omega)
          halign
          (by intro x hx
              rcases List.mem_append.mp hx with h | h
              · exact hle x h
              · rw [List.mem_singleton] at h; rw [h]; exact hstartE)
          (by intro f hf
              cases cur with
              | nil => exact absurd rfl hne
              | cons c cs =>
                simp only [List.cons_append, List.head?_cons,
                  Option.some.injEq] at hf
                exact hfh f (by rw [List.head?_cons, hf]))
      rw [hstep]
      refine ⟨?_, ihne, ihgap, ihalign, ihle, ihfh, ihchain, ihhead⟩
      rw [ihjoin, List.append_assoc]
      simp

theorem identifySessionBlocks_spec (entries : List RawEntry) :
    ((identifySessionBlocks entries).map Block.entries).flatten =
      sortEntriesByTimestamp entries ∧
    (∀ b ∈ identifySessionBlocks entries, b.entries ≠ []) ∧
    (∀ b ∈ identifySessionBlocks entries, b.entries.Chain' gapWithinWindow) ∧
    (∀ b ∈ identifySessionBlocks entries, b.startTime % hourMs = 0) ∧
    (∀ b ∈ identifySessionBlocks entries, ∀ x ∈ b.entries,
      b.startTime ≤ x.timestamp) ∧
    (∀ b ∈ identifySessionBlocks entries, ∀ f, b.entries.head? = some f →
      b.startTime = floorToHour f.timestamp) ∧
    ((identifySessionBlocks entries).map Block.startTime).Chain' (· < ·) ∧
    (∀ b ∈ identifySessionBlocks entries,
      b.endTime = b.startTime + sessionDurationMs) := by
  unfold identifySessionBlocks
  cases hs : sortEntriesByTimestamp entries with
  | nil => simp
  | cons e rest =>
    have hchain : (e :: rest).Chain' tsLE := by
      rw [← hs]
      exact sortEntriesByTimestamp_chain entries
    obtain ⟨hjoin, hne, hgap, halign, hle, hfh, hchainlt, _⟩ :=
      identifyGo_spec rest (floorToHour e.timestamp) [e] (by simp)
        (by simpa using hchain)
        (List.chain'_singleton e)
        (floorToHour_mod e.timestamp)
        (by intro x hx; rw [List.mem_singleton] at hx; rw [hx]
            exact floorToHour_le e.timestamp)
        (by intro f hf; simp only [List.head?_cons, Option.some.injEq] at hf
            rw [hf])
    refine ⟨?_, ?_, ?_, ?_, ?_, ?_, ?_, ?_⟩
    · rw [List.map_map]
      simpa using hjoin
    · intro b hb
      rw [List.mem_map] at hb
      obtain ⟨p, hp, hpb⟩ := hb
      rw [← hpb]
      exact hne p hp
    · intro b hb
      rw [List.mem_map] at hb
      obtain ⟨p, hp, hpb⟩ := hb
      rw [← hpb]
      exact hgap p hp
    · intro b hb
      rw [List.mem_map] at hb
      obtain ⟨p, hp, hpb⟩ := hb
      rw [← hpb]
      exact halign p hp
    · intro b hb
      rw [List.mem_map] at hb
      obtain ⟨p, hp, hpb⟩ := hb
      rw [← hpb]
      exact hle p hp
    · intro b hb
      rw [List.mem_map] at hb
      obtain ⟨p, hp, hpb⟩ := hb
      rw [← hpb]
      exact hfh p hp
    · rw [List.map_map]
      simpa using hchainlt
    · intro b hb
      rw [List.mem_map] at hb
      obtain ⟨p, hp, hpb⟩ := hb
      rw [← hpb]

theorem percentile95_index_lt (bt : List ℚ) (hne : bt ≠ []) :
    (sortDesc bt).length * 5 / 100 < (sortDesc bt).length := by
  have hpos : 0 < (sortDesc bt).length := by
    rw [sortDesc_length]
    exact List.length_pos.mpr hne
  rw [Nat.div_lt_iff_lt_mul (by omega : 0 < 100)]
  omega

theorem percentile99_index_lt (bt : List ℚ) (hne : bt ≠ []) :
    (sortDesc bt).length / 100 < (sortDesc bt).length := by
  have hpos : 0 < (sortDesc bt).length := by
    rw [sortDesc_length]
    exact List.length_pos.mpr hne
  rw [Nat.div_lt_iff_lt_mul (by omega : 0 < 100)]
  omega

theorem getD_mem_of_lt (l : List ℚ) (i : ℕ) (h : i < l.length) :
    l.getD i 0 ∈ l := by
  have hg : l.getD i 0 = l.get ⟨i, h⟩ := by
    simp [List.getD_eq_getElem?_getD, List.getElem?_eq_getElem h]
  rw [hg]
  exact l.get_mem _ _

theorem percentile95_mem (bt : List ℚ) (hne : bt ≠ []) : percentile95 bt ∈ bt := by
  unfold percentile95
  exact (sortDesc_perm bt).mem_iff.mp
    (getD_mem_of_lt _ _ (percentile95_index_lt bt hne))

theorem percentile99_mem (bt : List ℚ) (hne : bt ≠ []) : percentile99 bt ∈ bt := by
  unfold percentile99
  exact (sortDesc_perm bt).mem_iff.mp
    (getD_mem_of_lt _ _ (percentile99_index_lt bt hne))

theorem groupGo_spec :
    ∀ (rest : List RawEntry) (start : Int) (tokens : Nat),
      ((groupGo start tokens rest).map Prod.fst).sum =
        tokens + (rest.map tokensAll).sum ∧
      (∀ p ∈ groupGo start tokens rest, 0 < p.1) ∧
      (∀ p ∈ groupGo start tokens rest,
        p.2 = start ∨ ∃ e ∈ rest, p.2 = e.timestamp) := by
  intro rest
  induction rest with
  | nil =>
    intro start tokens
    by_cases h : 0 < tokens
    · simp [groupGo, h]
    · have h0 : tokens = 0 := by omega
      simp [groupGo, h, h0]
  | cons e rest ih =>
    intro start tokens
    by_cases hbr : e.timestamp - start > sessionDurationMs
    · have hstep : groupGo start tokens (e :: rest) =
          (if 0 < tokens then [(tokens, start)] else []) ++
            groupGo e.timestamp (tokensAll e) rest := by
        simp [groupGo, hbr]
      obtain ⟨ihsum, ihpos, ihanchor⟩ := ih e.timestamp (tokensAll e)
      rw [hstep]
      refine ⟨?_, ?_, ?_⟩
      · by_cases h : 0 < tokens
        · rw [if_pos h]
          simp only [List.map_append, List.sum_append, List.map_cons,
            List.sum_cons, List.map_nil, List.sum_nil, ihsum]
          omega
        · have h0 : tokens = 0 := by omega
          rw [if_neg h]
          simp only [List.nil_append, List.map_cons, List.sum_cons, ihsum, h0]
          omega
      · intro p hp
        rcases List.mem_append.mp hp with h | h
        · by_cases ht : 0 < tokens
          · rw [if_pos ht] at h
            rw [List.mem_singleton] at h
            rw [h]
            exact ht
          · rw [if_neg ht] at h
            simp at h
        · exact ihpos p h
      · intro p hp
        rcases List.mem_append.mp hp with h | h
        · by_cases ht : 0 < tokens
          · rw [if_pos ht] at h
            rw [List.mem_singleton] at h
            rw [h]
            exact Or.inl rfl
          · rw [if_neg ht] at h
            simp at h
        · rcases ihanchor p h with h1 | ⟨x, hx, hx2⟩
          · exact Or.inr ⟨e, List.mem_cons_self e rest, h1⟩
          · exact Or.inr ⟨x, List.mem_cons_of_mem e hx, hx2⟩
    · have hstep : groupGo start tokens (e :: rest) =
          groupGo start (tokens + tokensAll e) rest := by
        simp [groupGo, hbr]
      obtain ⟨ihsum, ihpos, ihanchor⟩ := ih start (tokens + tokensAll e)
      rw [hstep]
      refine ⟨?_, ihpos, ?_⟩
      · rw [ihsum]
        simp
        omega
      · intro p hp
        rcases ihanchor p hp with h1 | ⟨x, hx, hx2⟩
        · exact Or.inl h1
        · exact Or.inr ⟨x, List.mem_cons_of_mem e hx, hx2⟩

theorem sum_tokensAll_split (entries : List RawEntry) :
    ((entries.map tokensAll).sum : ℚ) =
      ((entries.map (fun e => (usageOf e).input_tokens)).sum : ℚ) +
        ((entries.map (fun e => (usageOf e).output_tokens)).sum : ℚ) +
        ((entries.map (fun e => (usageOf e).cache_creation_input_tokens)).sum : ℚ) +
        ((entries.map (fun e => (usageOf e).cache_read_input_tokens)).sum : ℚ) := by
  induction entries with
  | nil => simp
  | cons e l ih =>
    simp only [List.map_cons, List.sum_cons]
    push_cast
    push_cast at ih
    rw [ih]
    unfold tokensAll
    push_cast
    ring

theorem sum_nonCache_split (entries : List RawEntry) :
    ((entries.map nonCacheTokens).sum : ℚ) =
      ((entries.map (fun e => (usageOf e).input_tokens)).sum : ℚ) +
        ((entries.map (fun e => (usageOf e).output_tokens)).sum : ℚ) := by
  induction entries with
  | nil => simp
  | cons e l ih =>
    simp only [List.map_cons, List.sum_cons]
    push_cast
    push_cast at ih
    rw [ih]
    unfold nonCacheTokens
    push_cast
    ring

theorem createEntryHash_isSome (e : RawEntry) (u : Usage) (hu : e.usage = some u) :
    ∃ h, createEntryHash e = some h := by
  unfold createEntryHash
  cases hm : e.messageId with
  | none => rw [hu]; exact ⟨_, rfl⟩
  | some m =>
    cases hr : e.requestId with
    | none => rw [hu]; exact ⟨_, rfl⟩
    | some r => exact ⟨_, rfl⟩

theorem seenAfter_mono :
    ∀ (l : List RawEntry) (seen : List EntryHash) (x : EntryHash),
      x ∈ seen → x ∈ seenAfter seen l := by
  intro l
  induction l with
  | nil => intro seen x hx; exact hx
  | cons a l ih =>
    intro seen x hx
    unfold seenAfter
    cases ha : a.isSidechain with
    | true => simpa using ih seen x hx
    | false =>
      simp only [Bool.false_eq_true, if_false]
      cases hu : a.usage with
      | none => exact ih seen x hx
      | some u =>
        cases hh : createEntryHash a with
        | none => exact ih seen x hx
        | some h =>
          dsimp only
          by_cases hmem : h ∈ seen
          · rw [if_pos hmem]; exact ih seen x hx
          · rw [if_neg hmem]; exact ih (h :: seen) x (List.mem_cons_of_mem h hx)

theorem hash_mem_seenAfter :
    ∀ (l : List RawEntry) (seen : List EntryHash) (e : RawEntry),
      e ∈ l → e.isSidechain = false → ∀ u, e.usage = some u →
      ∀ hsh, createEntryHash e = some hsh → hsh ∈ seenAfter seen l := by
  intro l
  induction l with
  | nil => intro seen e he; simp at he
  | cons a l ih =>
    intro seen e he hside u hu hsh hhash
    rcases List.mem_cons.mp he with rfl | hmem
    · unfold seenAfter
      rw [hside]
      simp only [Bool.false_eq_true, if_false, hu, hhash]
      by_cases hs : hsh ∈ seen
      · rw [if_pos hs]
        exact seenAfter_mono l seen hsh hs
      · rw [if_neg hs]
        exact seenAfter_mono l (hsh :: seen) hsh (List.mem_cons_self hsh seen)
    · unfold seenAfter
      cases ha : a.isSidechain with
      | true => simpa using ih seen e hmem hside u hu hsh hhash
      | false =>
        simp only [Bool.false_eq_true, if_false]
        cases hua : a.usage with
        | none => exact ih seen e hmem hside u hu hsh hhash
        | some ua =>
          cases hha : createEntryHash a with
          | none => exact ih seen e hmem hside u hu hsh hhash
          | some hb =>
            dsimp only
            by_cases hs : hb ∈ seen
            · rw [if_pos hs]; exact ih seen e hmem hside u hu hsh hhash
            · rw [if_neg hs]; exact ih (hb :: seen) e hmem hside u hu hsh hhash

theorem dedupGo_eq_nil_of_seen :
    ∀ (l : List RawEntry) (seen : List EntryHash),
      (∀ e ∈ l, e.isSidechain = false → ∀ u, e.usage = some u →
        ∀ hsh, createEntryHash e = some hsh → hsh ∈ seen) →
      dedupGo seen l = [] := by
  intro l
  induction l with
  | nil => intro seen _; rfl
  | cons a l ih =>
    intro seen hall
    unfold dedupGo
    cases ha : a.isSidechain with
    | true =>
      simp only [if_true]
      exact ih seen (fun e he => hall e (List.mem_cons_of_mem a he))
    | false =>
      simp only [Bool.false_eq_true, if_false]
      cases hu : a.usage with
      | none => exact ih seen (fun e he => hall e (List.mem_cons_of_mem a he))
      | some u =>
        obtain ⟨hsh, hhash⟩ := createEntryHash_isSome a u hu
        rw [hhash]
        dsimp only
        have hmem : hsh ∈ seen :=
          hall a (List.mem_cons_self a l) ha u hu hsh hhash
        rw [if_pos hmem]
        exact ih seen (fun e he => hall e (List.mem_cons_of_mem a he))

theorem dedupGo_append :
    ∀ (l₁ l₂ : List RawEntry) (seen : List EntryHash),
      dedupGo seen (l₁ ++ l₂) =
        dedupGo seen l₁ ++ dedupGo (seenAfter seen l₁) l₂ := by
  intro l₁
  induction l₁ with
  | nil => intro l₂ seen; rfl
  | cons a l₁ ih =>
    intro l₂ seen
    cases ha : a.isSidechain with
    | true => simp [dedupGo, seenAfter, ha, ih]
    | false =>
      cases hu : a.usage with
      | none => simp [dedupGo, seenAfter, ha, hu, ih]
      | some u =>
        cases hh : createEntryHash a with
        | none => simp [dedupGo, seenAfter, ha, hu, hh, ih]
        | some h =>
          by_cases hmem : h ∈ seen
          · simp [dedupGo, seenAfter, ha, hu, hh, hmem, ih]
          · simp [dedupGo, seenAfter, ha, hu, hh, hmem, ih]

theorem sum_tokensAll_fields (l : List RawEntry) :
    (l.map tokensAll).sum =
      (l.map (fun e => (usageOf e).input_tokens)).sum +
        (l.map (fun e => (usageOf e).output_tokens)).sum +
        (l.map (fun e => (usageOf e).cache_creation_input_tokens)).sum +
        (l.map (fun e => (usageOf e).cache_read_input_tokens)).sum := by
  induction l with
  | nil => rfl
  | cons e l ih =>
    simp only [List.map_cons, List.sum_cons, ih]
    unfold tokensAll
    omega

theorem breakdownFold_fields :
    ∀ (l : List RawEntry) (acc : TokenBreakdown),
      l.foldl
        (fun acc e =>
          TokenBreakdown.mk
            (acc.input + (usageOf e).input_tokens)
            (acc.output + (usageOf e).output_tokens)
            (acc.cacheCreation + (usageOf e).cache_creation_input_tokens)
            (acc.cacheRead + (usageOf e).cache_read_input_tokens)
            acc.total) acc =
        TokenBreakdown.mk
          (acc.input + (l.map (fun e => (usageOf e).input_tokens)).sum)
          (acc.output + (l.map (fun e => (usageOf e).output_tokens)).sum)
          (acc.cacheCreation +
            (l.map (fun e => (usageOf e).cache_creation_input_tokens)).sum)
          (acc.cacheRead +
            (l.map (fun e => (usageOf e).cache_read_input_tokens)).sum)
          acc.total := by
  intro l
  induction l with
  | nil => intro acc; simp
  | cons e l ih =>
    intro acc
    simp only [List.foldl_cons, List.map_cons, List.sum_cons]
    rw [ih]
    dsimp only
    simp [Nat.add_assoc]

theorem getAllSessionsForToday_totals (l : List RawEntry) :
    (getAllSessionsForToday l).totalTokens = (l.map tokensAll).sum ∧
    (getAllSessionsForToday l).totalCost = (l.map RawEntry.costUSD).sum := by
  refine ⟨?_, rfl⟩
  show (calculateTokenBreakdown l).total = _
  unfold calculateTokenBreakdown
  rw [breakdownFold_fields, sum_tokensAll_fields]
  simp

theorem chunkIndex_adjacent (R : RawEntry → RawEntry → Prop) :
    ∀ (cs : List (List RawEntry)) (i : ℕ) (a b : RawEntry),
      (∀ ck ∈ cs, ck.Chain' R) →
      chunkIndex cs i = chunkIndex cs (i + 1) →
      cs.flatten[i]? = some a → cs.flatten[i + 1]? = some b → R a b := by
  intro cs
  induction cs with
  | nil =>
    intro i a b _ _ ha _
    simp at ha
  | cons ck cs ih =>
    intro i a b hchain heq ha hb
    rw [List.flatten_cons] at ha hb
    by_cases hi : i < ck.length
    · by_cases hi1 : i + 1 < ck.length
      · have hca : ck[i]? = some a := by rwa [List.getElem?_append_left hi] at ha
        have hcb : ck[i + 1]? = some b := by rwa [List.getElem?_append_left hi1] at hb
        have hchainc := hchain ck (List.mem_cons_self ck cs)
        rw [List.chain'_iff_get] at hchainc
        have hstep := hchainc i (by omega)
        have hga : ck.get ⟨i, hi⟩ = a := by
          have := List.getElem?_eq_getElem hi
          rw [this] at hca
          simpa using hca
        have hgb : ck.get ⟨i + 1, hi1⟩ = b := by
          have := List.getElem?_eq_getElem hi1
          rw [this] at hcb
          simpa using hcb
        rw [← hga, ← hgb]
        exact hstep
      · exfalso
        have h1 : chunkIndex (ck :: cs) i = 0 := by
          simp [chunkIndex, hi]
        have h2 : chunkIndex (ck :: cs) (i + 1) =
            chunkIndex cs (i + 1 - ck.length) + 1 := by
          simp [chunkIndex, hi1]
        omega
    · have hi1 : ¬(i + 1 < ck.length) := by omega
      have h1 : chunkIndex (ck :: cs) i = chunkIndex cs (i - ck.length) + 1 := by
        simp [chunkIndex, hi]
      have h2 : chunkIndex (ck :: cs) (i + 1) =
          chunkIndex cs (i + 1 - ck.length) + 1 := by
        simp [chunkIndex, hi1]
      have harr : i + 1 - ck.length = i - ck.length + 1 := by omega
      rw [harr] at h2
      refine ih (i - ck.length) a b
        (fun d hd => hchain d (List.mem_cons_of_mem _ hd)) ?_ ?_ ?_
      · omega
      · rwa [List.getElem?_append_right (by omega)] at ha
      · rw [List.getElem?_append_right (by omega : ck.length ≤ i + 1)] at hb
        rwa [harr] at hb

end Lemmas

section ClaimTheorems

/-- C1: for every record sequence, the Block Partitioner appends a record to
the open block unless the time since the open block's start or since the
previous record exceeds the 5-hour window, in which case it closes the block
and opens a new one anchored at the new record; consequently no two
consecutive records within one block are separated by more than the window
(every block's entry list is a chain under `gapWithinWindow`), the blocks
partition the time-ordered record stream exactly, and any pair of
consecutive records of the stream separated by more than the window land in
blocks with different indices. -/
theorem claim1_partitioner_gap_rule (entries : List RawEntry) :
    (∀ b ∈ identifySessionBlocks entries, b.entries.Chain' gapWithinWindow) ∧
    ((identifySessionBlocks entries).map Block.entries).flatten =
      sortEntriesByTimestamp entries ∧
    (∀ (i : ℕ) (a b : RawEntry),
      (sortEntriesByTimestamp entries)[i]? = some a →
      (sortEntriesByTimestamp entries)[i + 1]? = some b →
      sessionDurationMs < b.timestamp - a.timestamp →
      chunkIndex (identifySessionBlockLists entries) i ≠
        chunkIndex (identifySessionBlockLists entries) (i + 1)) := by
  obtain ⟨hjoin, _, hgap, _, _, _, _, _⟩ := identifySessionBlocks_spec entries
  refine ⟨hgap, hjoin, ?_⟩
  intro i a b ha hb hfar heqidx
  have hflat : (identifySessionBlockLists entries).flatten =
      sortEntriesByTimestamp entries := by
    unfold identifySessionBlockLists
    exact hjoin
  have hR : gapWithinWindow a b := by
    refine chunkIndex_adjacent gapWithinWindow
      (identifySessionBlockLists entries) i a b ?_ heqidx ?_ ?_
    · intro ck hck
      unfold identifySessionBlockLists at hck
      rw [List.mem_map] at hck
      obtain ⟨blk, hblk, hblk2⟩ := hck
      rw [← hblk2]
      exact hgap blk hblk
    · rw [hflat]; exact ha
    · rw [hflat]; exact hb
  unfold gapWithinWindow at hR
  omega

/-- Witness for C1 at a concrete input: two records 6 hours apart fall in
blocks with different indices. -/
theorem claim1_partitioner_gap_rule_witness :
    chunkIndex (identifySessionBlockLists
      [(⟨0, some ⟨10, 20, 0, 0⟩, 0, false, none, none⟩ : RawEntry),
       (⟨21600000, some ⟨10, 20, 0, 0⟩, 0, false, none, none⟩ : RawEntry)]) 0 ≠
    chunkIndex (identifySessionBlockLists
      [(⟨0, some ⟨10, 20, 0, 0⟩, 0, false, none, none⟩ : RawEntry),
       (⟨21600000, some ⟨10, 20, 0, 0⟩, 0, false, none, none⟩ : RawEntry)]) 1 :=
  (claim1_partitioner_gap_rule
      [⟨0, some ⟨10, 20, 0, 0⟩, 0, false, none, none⟩,
       ⟨21600000, some ⟨10, 20, 0, 0⟩, 0, false, none, none⟩]).2.2 0
    ⟨0, some ⟨10, 20, 0, 0⟩, 0, false, none, none⟩
    ⟨21600000, some ⟨10, 20, 0, 0⟩, 0, false, none, none⟩
    (by decide) (by decide) (by decide)

/-- C5: the Block Partitioner's output covers every input record exactly once
(the concatenation of the blocks' entry lists is a permutation of the
input), every block's `startTime` is floored to an exact UTC hour boundary,
and the `startTime` values are strictly increasing across the block
sequence. -/
theorem claim5_block_invariant (entries : List RawEntry) :
    ((identifySessionBlocks entries).map Block.entries).flatten.Perm entries ∧
    (∀ b ∈ identifySessionBlocks entries, b.startTime % hourMs = 0) ∧
    ((identifySessionBlocks entries).map Block.startTime).Chain' (· < ·) := by
  obtain ⟨hjoin, _, _, halign, _, _, hchain, _⟩ := identifySessionBlocks_spec entries
  refine ⟨?_, halign, hchain⟩
  rw [hjoin]
  exact sortEntriesByTimestamp_perm entries

/-- Witness for C5 at a concrete input: the single block of a one-record
stream has an hour-aligned start. -/
theorem claim5_block_invariant_witness :
    (Block.mk 0 18000000
      [(⟨300000, some ⟨10, 20, 0, 0⟩, 0, false, none, none⟩ : RawEntry)]).startTime
      % hourMs = 0 :=
  (claim5_block_invariant
      [⟨300000, some ⟨10, 20, 0, 0⟩, 0, false, none, none⟩]).2.1
    ⟨0, 18000000, [⟨300000, some ⟨10, 20, 0, 0⟩, 0, false, none, none⟩]⟩
    (by decide)

theorem findActiveBlockGo_eq_find? (now : Int) :
    ∀ bs : List (List RawEntry),
      findActiveBlockGo now bs = bs.find? (blockActive now)
  | [] => rfl
  | b :: rest => by
    cases b with
    | nil =>
      have h : blockActive now [] = false := rfl
      simp [findActiveBlockGo, List.find?, h, findActiveBlockGo_eq_find? now rest]
    | cons hd tl =>
      have hact : blockActive now (hd :: tl) =
          createBlockInfo now (floorToHour hd.timestamp) (hd :: tl) := rfl
      cases hc : createBlockInfo now (floorToHour hd.timestamp) (hd :: tl) with
      | false =>
        simp [findActiveBlockGo, List.find?, hact, hc,
          findActiveBlockGo_eq_find? now rest]
      | true =>
        simp [findActiveBlockGo, List.find?, hact, hc]

/-- C2: a block is reported active iff both the time elapsed since its last
record is less than the window duration and the current instant is before
its fixed end (`floorToHour` of its first record plus the window, which is
exactly the partitioned block's `endTime`); a block whose last record is at
least a window older than now is never active; and the resolver scans the
blocks from most recent to least recent, returning the first match. -/
theorem claim2_active_block_resolver (now : Int) (blocks : List (List RawEntry)) :
    (∀ (b : List RawEntry) (f l : RawEntry),
      b.head? = some f → b.getLast? = some l →
      (blockActive now b = true ↔
        (now - l.timestamp < sessionDurationMs ∧
          now < floorToHour f.timestamp + sessionDurationMs))) ∧
    (∀ (b : List RawEntry) (l : RawEntry), b.getLast? = some l →
      sessionDurationMs ≤ now - l.timestamp → blockActive now b = false) ∧
    findActiveBlock now blocks = blocks.reverse.find? (blockActive now) ∧
    (∀ (entries : List RawEntry), ∀ b ∈ identifySessionBlocks entries,
      ∀ f, b.entries.head? = some f →
        floorToHour f.timestamp + sessionDurationMs = b.endTime) := by
  have hiff : ∀ (b : List RawEntry) (f l : RawEntry),
      b.head? = some f → b.getLast? = some l →
      (blockActive now b = true ↔
        (now - l.timestamp < sessionDurationMs ∧
          now < floorToHour f.timestamp + sessionDurationMs)) := by
    intro b f l hf hl
    cases b with
    | nil => simp at hf
    | cons hd tl =>
      have hf' : hd = f := by simpa using hf
      unfold blockActive createBlockInfo
      rw [List.head?_cons, hl, hf']
      simp
  refine ⟨hiff, ?_, findActiveBlockGo_eq_find? now blocks.reverse, ?_⟩
  · intro b l hl hold
    cases b with
    | nil => rfl
    | cons hd tl =>
      have hiff' := hiff (hd :: tl) hd l rfl hl
      cases hb : blockActive now (hd :: tl) with
      | false => rfl
      | true =>
        have := (hiff'.mp hb).1
        omega
  · intro entries b hb f hf
    obtain ⟨_, _, _, _, _, hfh, _, hend⟩ := identifySessionBlocks_spec entries
    rw [hend b hb, ← hfh b hb f hf]

/-- Witness for C2 at a concrete input: a singleton block whose record is at
`now` is reported active. -/
theorem claim2_active_block_resolver_witness :
    blockActive 0 [(⟨0, some ⟨10, 20, 0, 0⟩, 0, false, none, none⟩ : RawEntry)]
      = true :=
  ((claim2_active_block_resolver 0 []).1
    [⟨0, some ⟨10, 20, 0, 0⟩, 0, false, none, none⟩]
    ⟨0, some ⟨10, 20, 0, 0⟩, 0, false, none, none⟩
    ⟨0, some ⟨10, 20, 0, 0⟩, 0, false, none, none⟩
    (by decide) (by decide)).mpr (by decide)

/-- C9: any exception surfacing inside the accessor body is caught at the
top-level boundary and converted to the documented hardcoded fallback payload
(percentage 48.6, tokensUsed 9404300, tokensLimit 19342800, isOverLimit
false); `getSubscriptionInfo` is a total function of the body's outcome, so
the accessor never propagates an exception. -/
theorem claim9_accessor_never_throws :
    (∀ err : String, getSubscriptionInfo (.error err) = getFallbackData) ∧
    getFallbackData =
      { percentage := 486 / 10
        tokensUsed := 9404300
        tokensLimit := 19342800
        isOverLimit := false } :=
  ⟨fun _ => rfl, rfl⟩

/-- C10: with fewer than 5 historical block totals, limit-cluster detection
reports no clusters at all, so the cluster-based high-confidence branch of
the Quota Estimator can never fire. -/
theorem claim10_few_blocks_no_clusters (blockTotals : List ℚ)
    (h : blockTotals.length < 5) :
    findLimitClusters (sortDesc blockTotals) = [] ∧
    (detectFromHistoricalUsage blockTotals).confidence ≠ .high := by
  have hlen : (sortDesc blockTotals).length < 5 := by
    rw [sortDesc_length]
    exact h
  have hclusters : findLimitClusters (sortDesc blockTotals) = [] := by
    unfold findLimitClusters
    rw [if_pos hlen]
  refine ⟨hclusters, ?_⟩
  unfold detectFromHistoricalUsage
  by_cases h0 : blockTotals.length = 0
  · rw [if_pos h0]
    intro hc
    exact absurd hc (by decide)
  · rw [if_neg h0]
    simp only [hclusters, List.length_nil, lt_irrefl, false_and, if_false]
    split_ifs <;> simp

/-- Witness for C10 at a concrete input: four totals pairwise within 2% above
the 30M floor still produce no clusters and no high confidence. -/
theorem claim10_few_blocks_no_clusters_witness :
    findLimitClusters
        (sortDesc [40000000, 40000000, 40000000, 40000000]) = [] ∧
    (detectFromHistoricalUsage
        [40000000, 40000000, 40000000, 40000000]).confidence ≠ .high :=
  claim10_few_blocks_no_clusters [40000000, 40000000, 40000000, 40000000]
    (by decide)

/-- Counterexample to C3 as stated: on the five totals 39M, 35M, 31M, 20M,
10M there are no limit clusters and the 95th percentile (39M) exceeds the
30M high-usage floor, so the claim's decision table dictates limit = the
99th percentile (39M) with confidence medium; the code instead requires the
95th percentile to exceed 40M for the medium branch, falls through to the
moderate branch and returns max(39M, 45.6M) = 45.6M with confidence low. -/
theorem claim3_counterexample :
    findLimitClusters
      (sortDesc [39000000, 35000000, 31000000, 20000000, 10000000]) = [] ∧
    percentile95 [39000000, 35000000, 31000000, 20000000, 10000000]
      = 39000000 ∧
    percentile99 [39000000, 35000000, 31000000, 20000000, 10000000]
      = 39000000 ∧
    (30000000 : ℚ) < 39000000 ∧
    detectFromHistoricalUsage [39000000, 35000000, 31000000, 20000000, 10000000]
      = { dailyTokenLimit := 45600000
          confidence := .low
          source := .historical_analysis } ∧
    Confidence.low ≠ Confidence.medium ∧ (45600000 : ℤ) ≠ 39000000 := by
  refine ⟨?_, ?_, ?_, by norm_num, ?_, by decide, by decide⟩
  · norm_num [findLimitClusters, sortDesc, List.insertionSort,
      List.orderedInsert, qGE, addToGroups]
  · norm_num [percentile95, sortDesc, List.insertionSort, List.orderedInsert,
      qGE]
  · norm_num [percentile99, sortDesc, List.insertionSort, List.orderedInsert,
      qGE]
  · norm_num [detectFromHistoricalUsage, findLimitClusters, sortDesc,
      List.insertionSort, List.orderedInsert, qGE, addToGroups, jsRound,
      getConservativeFallback]

/-- C3 amended: the decision table holds with the medium branch conditioned
on the 95th percentile exceeding 40M (not the 30M high-usage floor): with a
non-empty history, clusters present and 99th percentile above 30M give the
rounded maximum cluster mean with confidence high; otherwise a 95th
percentile above 40M gives the 99th percentile with confidence medium;
otherwise a 95th percentile above 20M gives max(99th percentile, 45.6M) with
confidence low; otherwise the hard fallback 45.6M with confidence low.  In
particular a history with no value above the 20M moderate floor yields the
hard fallback constant with confidence low. -/
theorem claim3_amended_decision_table (blockTotals : List ℚ)
    (hne : blockTotals ≠ []) :
    detectFromHistoricalUsage blockTotals =
      (if findLimitClusters (sortDesc blockTotals) ≠ [] ∧
          percentile99 blockTotals > 30000000 then
        UsageLimit.mk (jsRound (jsMax (findLimitClusters (sortDesc blockTotals))))
          .high .historical_analysis
      else if percentile95 blockTotals > 40000000 then
        UsageLimit.mk (jsRound (percentile99 blockTotals)) .medium
          .historical_analysis
      else if percentile95 blockTotals > 20000000 then
        UsageLimit.mk (jsRound (max (percentile99 blockTotals) 45600000)) .low
          .historical_analysis
      else UsageLimit.mk 45600000 .low .historical_analysis) ∧
    ((∀ x ∈ blockTotals, x ≤ 20000000) →
      detectFromHistoricalUsage blockTotals =
        UsageLimit.mk 45600000 .low .historical_analysis) := by
  have hlen0 : ¬blockTotals.length = 0 := by
    simpa using (List.length_pos.mpr hne).ne'
  have e95 : (sortDesc blockTotals).getD ((sortDesc blockTotals).length * 5 / 100) 0
      = percentile95 blockTotals := rfl
  have e99 : (sortDesc blockTotals).getD ((sortDesc blockTotals).length / 100) 0
      = percentile99 blockTotals := rfl
  have htbl : detectFromHistoricalUsage blockTotals =
      (if findLimitClusters (sortDesc blockTotals) ≠ [] ∧
          percentile99 blockTotals > 30000000 then
        UsageLimit.mk (jsRound (jsMax (findLimitClusters (sortDesc blockTotals))))
          .high .historical_analysis
      else if percentile95 blockTotals > 40000000 then
        UsageLimit.mk (jsRound (percentile99 blockTotals)) .medium
          .historical_analysis
      else if percentile95 blockTotals > 20000000 then
        UsageLimit.mk (jsRound (max (percentile99 blockTotals) 45600000)) .low
          .historical_analysis
      else UsageLimit.mk 45600000 .low .historical_analysis) := by
    unfold detectFromHistoricalUsage
    rw [if_neg hlen0]
    simp only [e95, e99]
    by_cases hA : findLimitClusters (sortDesc blockTotals) ≠ [] ∧
        percentile99 blockTotals > 30000000
    · have hA' : 0 < (findLimitClusters (sortDesc blockTotals)).length ∧
          percentile99 blockTotals > 30000000 :=
        ⟨List.length_pos.mpr hA.1, hA.2⟩
      rw [if_pos hA', if_pos hA]
    · have hA' : ¬(0 < (findLimitClusters (sortDesc blockTotals)).length ∧
          percentile99 blockTotals > 30000000) := by
        intro hc
        exact hA ⟨List.length_pos.mp hc.1, hc.2⟩
      rw [if_neg hA', if_neg hA]
      by_cases hB : percentile95 blockTotals > 40000000
      · rw [if_pos hB, if_pos hB]
      · rw [if_neg hB, if_neg hB]
        by_cases hC : percentile95 blockTotals > 20000000
        · rw [if_pos hC, if_pos hC]
        · rw [if_neg hC, if_neg hC]
          norm_num [jsRound]
  refine ⟨htbl, ?_⟩
  intro hall
  have h95 : percentile95 blockTotals ≤ 20000000 :=
    hall _ (percentile95_mem blockTotals hne)
  have h99 : percentile99 blockTotals ≤ 30000000 :=
    le_trans (hall _ (percentile99_mem blockTotals hne)) (by norm_num)
  rw [htbl]
  rw [if_neg (by intro hc; exact absurd hc.2 (not_lt.mpr h99))]
  rw [if_neg (by intro hc; exact absurd hc (not_lt.mpr (le_trans h95 (by norm_num))))]
  rw [if_neg (by intro hc; exact absurd hc (not_lt.mpr h95))]

/-- Witness for C3 amended at a concrete input: a single total of 10 tokens
is below the moderate floor, so the estimator returns the hard fallback
constant with confidence low. -/
theorem claim3_amended_decision_table_witness :
    detectFromHistoricalUsage [10] =
      UsageLimit.mk 45600000 .low .historical_analysis :=
  (claim3_amended_decision_table [10] (by decide)).2 (by decide)

/-- Counterexample to C4 as stated: on a record at 00:30 and a record at
05:15 (4h45m later) the canonical §4.2 partitioner floors the block start to
00:00, sees the second record 5h15m after the block start and opens a second
block, while the estimator's internal `groupInto5HourBlocks` anchors the
block at the raw timestamp 00:30, keeps both records in one block, and its
anchor is not hour-floored — so the estimator's partitioning is not
equivalent to the canonical partitioner. -/
theorem claim4_counterexample :
    (identifySessionBlocks
        [(⟨1800000, some ⟨10, 0, 0, 0⟩, 0, false, none, none⟩ : RawEntry),
         (⟨18900000, some ⟨10, 0, 0, 0⟩, 0, false, none, none⟩ : RawEntry)]).map
      blockTotalTokens = [10, 10] ∧
    groupInto5HourBlocks
        [(⟨1800000, some ⟨10, 0, 0, 0⟩, 0, false, none, none⟩ : RawEntry),
         (⟨18900000, some ⟨10, 0, 0, 0⟩, 0, false, none, none⟩ : RawEntry)]
      = [(20, 1800000)] ∧
    (1800000 : Int) % hourMs ≠ 0 := by
  refine ⟨by decide, by decide, by decide⟩

/-- C4 amended: the Quota Estimator partitions its historical records with
`groupInto5HourBlocks`, which differs from the canonical §4.2 partitioner:
blocks are anchored at the raw (unfloored) timestamp of some record, the
only break condition is a record falling more than 5 hours after the block
anchor (there is no inactivity condition against the previous record), only
zero-token blocks are discarded, and active blocks are never excluded.  The
kept blocks carry positive totals, anchored at record timestamps, and
together account for every record's tokens exactly once. -/
theorem claim4_amended_estimator_grouping (entries : List RawEntry) :
    ((groupInto5HourBlocks entries).map Prod.fst).sum =
      (entries.map tokensAll).sum ∧
    (∀ p ∈ groupInto5HourBlocks entries, 0 < p.1) ∧
    (∀ p ∈ groupInto5HourBlocks entries, ∃ e ∈ entries, p.2 = e.timestamp) := by
  unfold groupInto5HourBlocks
  cases hs : sortEntriesByTimestamp entries with
  | nil =>
    have hperm := sortEntriesByTimestamp_perm entries
    rw [hs] at hperm
    have : entries = [] := hperm.symm.eq_nil
    rw [this]
    simp
  | cons e rest =>
    have hperm := sortEntriesByTimestamp_perm entries
    rw [hs] at hperm
    obtain ⟨hsum, hpos, hanchor⟩ := groupGo_spec (e :: rest) e.timestamp 0
    refine ⟨?_, hpos, ?_⟩
    · rw [hsum, Nat.zero_add]
      exact ((hperm.map tokensAll).sum_eq)
    · intro p hp
      rcases hanchor p hp with h1 | ⟨x, hx, hx2⟩
      · exact ⟨e, hperm.mem_iff.mp (List.mem_cons_self e rest), h1⟩
      · exact ⟨x, hperm.mem_iff.mp hx, hx2⟩

/-- Witness for C4 amended at a concrete input: the single kept block of the
counterexample record pair has a positive total. -/
theorem claim4_amended_estimator_grouping_witness :
    0 < ((20, 1800000) : ℕ × ℤ).1 :=
  (claim4_amended_estimator_grouping
      [⟨1800000, some ⟨10, 0, 0, 0⟩, 0, false, none, none⟩,
       ⟨18900000, some ⟨10, 0, 0, 0⟩, 0, false, none, none⟩]).2.1
    (20, 1800000) (by decide)

/-- Counterexample to C6 as stated: a sidechain record with full usage fields
and a recorded cost is counted by every one of the three listed totals.  The
transcript parser never copies `isSidechain` onto its output (`parsedEntry`),
so the subscription path's sidechain skip never fires and the record's 40
tokens enter the active-block totals; `getAllSessionsForToday` (daily cost
aggregate) and `groupInto5HourBlocks` (the estimator's historical totals)
perform no sidechain filter at all. -/
theorem claim6_counterexample :
    ((⟨0, some ⟨10, 20, 5, 5⟩, 1, true, none, none⟩ : RawEntry).isSidechain
      = true) ∧
    (parsedEntry (⟨0, some ⟨10, 20, 5, 5⟩, 1, true, none, none⟩ : RawEntry)).isSidechain
      = false ∧
    (getActiveBlockUsage 0
        ([(⟨0, some ⟨10, 20, 5, 5⟩, 1, true, none, none⟩ : RawEntry)].map
          parsedEntry)).activeBlockWithCache = 40 ∧
    (getActiveBlockUsage 0
        ([(⟨0, some ⟨10, 20, 5, 5⟩, 1, true, none, none⟩ : RawEntry)].map
          parsedEntry)).totalTokens = 35 ∧
    (getAllSessionsForToday
        [(⟨0, some ⟨10, 20, 5, 5⟩, 1, true, none, none⟩ : RawEntry)]).totalTokens
      = 40 ∧
    (getAllSessionsForToday
        [(⟨0, some ⟨10, 20, 5, 5⟩, 1, true, none, none⟩ : RawEntry)]).totalCost
      = 1 ∧
    groupInto5HourBlocks
        [(⟨0, some ⟨10, 20, 5, 5⟩, 1, true, none, none⟩ : RawEntry)]
      = [(40, 0)] := by
  refine ⟨rfl, rfl, by decide, by decide, by decide, ?_, by decide⟩
  norm_num [getAllSessionsForToday]

/-- C6 amended: a record with `isSidechain = true` is excluded only by the
burn-rate service, whose own line parser sees the raw flag; it is counted in
full everywhere else.  The transcript parser does not copy `isSidechain`
onto parsed entries, so the subscription path processes a sidechain line
exactly like the same line with the flag cleared (its tokens and cost enter
the active-block totals as for any record), and the daily cost aggregate
adds exactly the record's token sum and cost. -/
theorem claim6_amended_sidechain_zero (now : Int) (l₁ l₂ : List RawEntry)
    (e : RawEntry) (he : e.isSidechain = true) :
    parseTranscriptEntries (l₁ ++ e :: l₂) = parseTranscriptEntries (l₁ ++ l₂) ∧
    (parsedEntry e).isSidechain = false ∧
    (l₁ ++ e :: l₂).map parsedEntry =
      (l₁ ++ clearSidechain e :: l₂).map parsedEntry ∧
    getActiveBlockUsage now ((l₁ ++ e :: l₂).map parsedEntry) =
      getActiveBlockUsage now ((l₁ ++ clearSidechain e :: l₂).map parsedEntry) ∧
    (getAllSessionsForToday (l₁ ++ e :: l₂)).totalTokens =
      (getAllSessionsForToday (l₁ ++ l₂)).totalTokens + tokensAll e ∧
    (getAllSessionsForToday (l₁ ++ e :: l₂)).totalCost =
      (getAllSessionsForToday (l₁ ++ l₂)).totalCost + e.costUSD := by
  have hmap : (l₁ ++ e :: l₂).map parsedEntry =
      (l₁ ++ clearSidechain e :: l₂).map parsedEntry := by
    simp only [List.map_append, List.map_cons]
    rfl
  refine ⟨?_, rfl, hmap, by rw [hmap], ?_, ?_⟩
  · unfold parseTranscriptEntries
    rw [List.filter_append, List.filter_append, List.filter_cons_of_neg]
    simp [he]
  · rw [(getAllSessionsForToday_totals _).1, (getAllSessionsForToday_totals _).1]
    simp only [List.map_append, List.sum_append, List.map_cons, List.sum_cons]
    omega
  · rw [(getAllSessionsForToday_totals _).2, (getAllSessionsForToday_totals _).2]
    simp only [List.map_append, List.sum_append, List.map_cons, List.sum_cons]
    ring

/-- Witness for C6 amended at a concrete input: a sidechain record with usage
between two ordinary records is dropped by the burn-rate filter, while the
subscription path treats it like a normal record and the daily aggregate
adds its 40 tokens and cost 1. -/
theorem claim6_amended_sidechain_zero_witness :
    parseTranscriptEntries
      [(⟨0, some ⟨1, 2, 3, 4⟩, 0, false, none, none⟩ : RawEntry),
       (⟨30000, some ⟨10, 20, 5, 5⟩, 1, true, none, none⟩ : RawEntry),
       (⟨60000, some ⟨5, 6, 7, 8⟩, 0, false, none, none⟩ : RawEntry)] =
      parseTranscriptEntries
        [(⟨0, some ⟨1, 2, 3, 4⟩, 0, false, none, none⟩ : RawEntry),
         (⟨60000, some ⟨5, 6, 7, 8⟩, 0, false, none, none⟩ : RawEntry)] ∧
    (parsedEntry
      (⟨30000, some ⟨10, 20, 5, 5⟩, 1, true, none, none⟩ : RawEntry)).isSidechain
      = false ∧
    ([(⟨0, some ⟨1, 2, 3, 4⟩, 0, false, none, none⟩ : RawEntry)] ++
        (⟨30000, some ⟨10, 20, 5, 5⟩, 1, true, none, none⟩ : RawEntry) ::
          [(⟨60000, some ⟨5, 6, 7, 8⟩, 0, false, none, none⟩ : RawEntry)]).map
        parsedEntry =
      ([(⟨0, some ⟨1, 2, 3, 4⟩, 0, false, none, none⟩ : RawEntry)] ++
        clearSidechain
            (⟨30000, some ⟨10, 20, 5, 5⟩, 1, true, none, none⟩ : RawEntry) ::
          [(⟨60000, some ⟨5, 6, 7, 8⟩, 0, false, none, none⟩ : RawEntry)]).map
        parsedEntry ∧
    getActiveBlockUsage 60000
        (([(⟨0, some ⟨1, 2, 3, 4⟩, 0, false, none, none⟩ : RawEntry)] ++
          (⟨30000, some ⟨10, 20, 5, 5⟩, 1, true, none, none⟩ : RawEntry) ::
            [(⟨60000, some ⟨5, 6, 7, 8⟩, 0, false, none, none⟩ : RawEntry)]).map
          parsedEntry) =
      getActiveBlockUsage 60000
        (([(⟨0, some ⟨1, 2, 3, 4⟩, 0, false, none, none⟩ : RawEntry)] ++
          clearSidechain
              (⟨30000, some ⟨10, 20, 5, 5⟩, 1, true, none, none⟩ : RawEntry) ::
            [(⟨60000, some ⟨5, 6, 7, 8⟩, 0, false, none, none⟩ : RawEntry)]).map
          parsedEntry) ∧
    (getAllSessionsForToday
        [(⟨0, some ⟨1, 2, 3, 4⟩, 0, false, none, none⟩ : RawEntry),
         (⟨30000, some ⟨10, 20, 5, 5⟩, 1, true, none, none⟩ : RawEntry),
         (⟨60000, some ⟨5, 6, 7, 8⟩, 0, false, none, none⟩ : RawEntry)]).totalTokens =
      (getAllSessionsForToday
        [(⟨0, some ⟨1, 2, 3, 4⟩, 0, false, none, none⟩ : RawEntry),
         (⟨60000, some ⟨5, 6, 7, 8⟩, 0, false, none, none⟩ : RawEntry)]).totalTokens +
        tokensAll (⟨30000, some ⟨10, 20, 5, 5⟩, 1, true, none, none⟩ : RawEntry) ∧
    (getAllSessionsForToday
        [(⟨0, some ⟨1, 2, 3, 4⟩, 0, false, none, none⟩ : RawEntry),
         (⟨30000, some ⟨10, 20, 5, 5⟩, 1, true, none, none⟩ : RawEntry),
         (⟨60000, some ⟨5, 6, 7, 8⟩, 0, false, none, none⟩ : RawEntry)]).totalCost =
      (getAllSessionsForToday
        [(⟨0, some ⟨1, 2, 3, 4⟩, 0, false, none, none⟩ : RawEntry),
         (⟨60000, some ⟨5, 6, 7, 8⟩, 0, false, none, none⟩ : RawEntry)]).totalCost +
        (⟨30000, some ⟨10, 20, 5, 5⟩, 1, true, none, none⟩ : RawEntry).costUSD :=
  claim6_amended_sidechain_zero 60000
    [⟨0, some ⟨1, 2, 3, 4⟩, 0, false, none, none⟩]
    [⟨60000, some ⟨5, 6, 7, 8⟩, 0, false, none, none⟩]
    ⟨30000, some ⟨10, 20, 5, 5⟩, 1, true, none, none⟩ rfl

/-- C7: the burn rate is `null` — never a division by a non-positive elapsed
time — whenever the entry stream has fewer than 2 records or zero (or
negative) elapsed time between its first and last record; otherwise it is
defined and equals the total tokens divided by the minutes elapsed between
the first and last record (and the indicator variant equals the non-cache
token total divided by the same minutes); the burn-rate accessor also
returns `null` when its filtered transcript has fewer than 2 entries. -/
theorem claim7_burn_rate_defined (now : Int) (entries : List RawEntry) :
    (entries.length < 2 → calculateBurnRate now entries = none) ∧
    (∀ f l, entries.head? = some f → entries.getLast? = some l →
      l.timestamp - f.timestamp ≤ 0 → calculateBurnRate now entries = none) ∧
    (∀ f l, entries.head? = some f → entries.getLast? = some l →
      2 ≤ entries.length → 0 < l.timestamp - f.timestamp →
      ∃ info, calculateBurnRate now entries = some info ∧
        info.tokensPerMinute =
          ((entries.map tokensAll).sum : ℚ) /
            (((l.timestamp - f.timestamp : Int) : ℚ) / 60000) ∧
        info.tokensPerMinuteForIndicator =
          ((entries.map nonCacheTokens).sum : ℚ) /
            (((l.timestamp - f.timestamp : Int) : ℚ) / 60000)) ∧
    (∀ lines : List RawEntry, (parseTranscriptEntries lines).length < 2 →
      getBurnRateInfo now lines = none) := by
  refine ⟨?_, ?_, ?_, ?_⟩
  · intro h
    unfold calculateBurnRate
    rw [if_pos h]
  · intro f l hf hl hle
    unfold calculateBurnRate
    by_cases hlen : entries.length < 2
    · rw [if_pos hlen]
    · rw [if_neg hlen]
      simp only [hf, hl]
      have hq : ((l.timestamp - f.timestamp : Int) : ℚ) ≤ 0 := by
        exact_mod_cast hle
      rw [if_pos (div_nonpos_of_nonpos_of_nonneg hq (by norm_num))]
  · intro f l hf hl hlen hpos
    unfold calculateBurnRate
    rw [if_neg (by omega)]
    simp only [hf, hl]
    have hq : (0 : ℚ) < ((l.timestamp - f.timestamp : Int) : ℚ) := by
      exact_mod_cast hpos
    rw [if_neg (not_le.mpr (by positivity))]
    refine ⟨_, rfl, ?_, ?_⟩
    · show (_ + _ + _ + _) / _ = _
      rw [sum_tokensAll_split]
    · show (_ + _) / _ = _
      rw [sum_nonCache_split]
  · intro lines h
    unfold getBurnRateInfo
    rw [if_pos h]

/-- Witness for C7 at a concrete input: two records one minute apart with 30
and 31 tokens give a defined burn rate equal to the total divided by the
elapsed minutes. -/
theorem claim7_burn_rate_defined_witness :
    ∃ info, calculateBurnRate 60000
        [(⟨0, some ⟨10, 20, 0, 0⟩, 0, false, none, none⟩ : RawEntry),
         (⟨60000, some ⟨11, 20, 0, 0⟩, 0, false, none, none⟩ : RawEntry)]
      = some info ∧
      info.tokensPerMinute =
        (([(⟨0, some ⟨10, 20, 0, 0⟩, 0, false, none, none⟩ : RawEntry),
           (⟨60000, some ⟨11, 20, 0, 0⟩, 0, false, none, none⟩ : RawEntry)].map
            tokensAll).sum : ℚ) /
          ((((60000 : Int) - (0 : Int) : Int) : ℚ) / 60000) ∧
      info.tokensPerMinuteForIndicator =
        (([(⟨0, some ⟨10, 20, 0, 0⟩, 0, false, none, none⟩ : RawEntry),
           (⟨60000, some ⟨11, 20, 0, 0⟩, 0, false, none, none⟩ : RawEntry)].map
            nonCacheTokens).sum : ℚ) /
          ((((60000 : Int) - (0 : Int) : Int) : ℚ) / 60000) :=
  (claim7_burn_rate_defined 60000
      [⟨0, some ⟨10, 20, 0, 0⟩, 0, false, none, none⟩,
       ⟨60000, some ⟨11, 20, 0, 0⟩, 0, false, none, none⟩]).2.2.1
    ⟨0, some ⟨10, 20, 0, 0⟩, 0, false, none, none⟩
    ⟨60000, some ⟨11, 20, 0, 0⟩, 0, false, none, none⟩
    (by decide) (by decide) (by decide) (by decide)

/-- C8: deduplication is idempotent — processing the same parsed log content
twice in one invocation yields the same deduplicated record stream, hence
the same usage data and token totals, as processing it once; and one
byte-identical line fed twice yields a single record after deduplication. -/
theorem claim8_dedup_idempotent :
    (∀ l : List RawEntry, filterAndDedup (l ++ l) = filterAndDedup l) ∧
    (∀ (now : Int) (l : List RawEntry),
      getActiveBlockUsage now (l ++ l) = getActiveBlockUsage now l) ∧
    (∀ e : RawEntry, e.isSidechain = false → e.usage.isSome = true →
      (filterAndDedup [e, e]).length = 1) := by
  have hidem : ∀ l : List RawEntry, filterAndDedup (l ++ l) = filterAndDedup l := by
    intro l
    unfold filterAndDedup
    rw [dedupGo_append]
    have hnil : dedupGo (seenAfter [] l) l = [] := by
      apply dedupGo_eq_nil_of_seen
      intro e he hside u hu hsh hhash
      exact hash_mem_seenAfter l [] e he hside u hu hsh hhash
    rw [hnil, List.append_nil]
  refine ⟨hidem, ?_, ?_⟩
  · intro now l
    unfold getActiveBlockUsage
    rw [hidem l]
  · intro e hside husage
    obtain ⟨u, hu⟩ := Option.isSome_iff_exists.mp husage
    obtain ⟨hsh, hhash⟩ := createEntryHash_isSome e u hu
    unfold filterAndDedup dedupGo
    rw [hside]
    simp only [Bool.false_eq_true, if_false, hu, hhash]
    rw [if_neg (List.not_mem_nil hsh)]
    unfold dedupGo
    rw [hside]
    simp only [Bool.false_eq_true, if_false, hu, hhash]
    rw [if_pos (List.mem_cons_self hsh [])]
    rfl

/-- Witness for C8 at a concrete input: one usage-bearing record duplicated
byte-identically survives deduplication exactly once. -/
theorem claim8_dedup_idempotent_witness :
    (filterAndDedup
      [(⟨5, some ⟨1, 2, 0, 0⟩, 0, false, none, none⟩ : RawEntry),
       (⟨5, some ⟨1, 2, 0, 0⟩, 0, false, none, none⟩ : RawEntry)]).length = 1 :=
  claim8_dedup_idempotent.2.2
    ⟨5, some ⟨1, 2, 0, 0⟩, 0, false, none, none⟩ rfl rfl

end ClaimTheorems

end CcStatus
